import Mathlib

/-!
Verification of the chunking / token-budget / batch-assembly core of
`src/chroma_mcp_client/indexing.py`.

The Python functions are shallowly embedded as executable Lean definitions:
text is `List Char` (a Python `str` is a sequence of code points), machine
integers are `Nat`/`Int`, and the two floating-point operations in the source
(`int(len(text) * 0.25)` and `int(best_length * 0.95)`) are modelled by their
exact integer values (`len / 4`, which is exact because `0.25` is a negative
power of two, and `b * 95 / 100`).  Stateful loops become explicit recursion;
the I/O-dependent parts of `index_file`/`index_git_files` are modelled by
passing the outcome of each external call as a parameter.
-/

/-- Python `\s` / `str.isspace` on the ASCII range: space, `\t`, `\n`, `\r`,
`\v` (11), `\f` (12).  (Non-ASCII whitespace is not modelled.) -/
def pyIsSpace (c : Char) : Bool :=
  c = ' ' || c = '\t' || c = '\n' || c = '\r' || c.val = 11 || c.val = 12

/-- The line boundaries recognised by Python `str.splitlines`:
`\n`, `\r`, `\v`, `\f`, FS/GS/RS (28-30), NEL (133), LS (8232), PS (8233).
`\r\n` is additionally treated as a single boundary by `splitlines` itself. -/
def isLineBreak (c : Char) : Bool :=
  c = '\n' || c = '\r' || c.val = 11 || c.val = 12 || c.val = 28 ||
  c.val = 29 || c.val = 30 || c.val = 133 || c.val = 8232 || c.val = 8233

/-- Collapse each `"\r\n"` pair into a single `'\n'`.  Python `splitlines`
treats the pair as one boundary; normalising first lets the main scan
handle every terminator uniformly. -/
def normalizeCRLF : List Char → List Char
  | [] => []
  | [c] => [c]
  | c :: d :: t =>
    if c = '\r' && d = '\n' then '\n' :: normalizeCRLF t
    else c :: normalizeCRLF (d :: t)

/-- Helper for Python `str.splitlines` (after CRLF normalisation): `acc`
holds the reversed current line; a trailing line terminator does not open
a final empty line. -/
def splitlinesAux : List Char → List Char → List (List Char)
  | [], acc => [acc.reverse]
  | c :: t, acc =>
    if isLineBreak c then
      if t.isEmpty then [acc.reverse] else acc.reverse :: splitlinesAux t []
    else splitlinesAux t (c :: acc)

/-- Python `str.splitlines()`: `"".splitlines() == []`, and a trailing
terminator produces no trailing empty line. -/
def splitlines (s : List Char) : List (List Char) :=
  match s with
  | [] => []
  | _ => splitlinesAux (normalizeCRLF s) []

/-- Source constant `OPENAI_MAX_TOKENS = 8192`. -/
def OPENAI_MAX_TOKENS : Nat := 8192

/-- `count_tokens(text)` on the estimation path (tiktoken unavailable):
`int(len(text) * TOKENS_PER_CHAR_ESTIMATE)` with `TOKENS_PER_CHAR_ESTIMATE
= 0.25`.  Multiplying a non-negative integer by `0.25 = 2⁻²` is exact in
binary floating point, and Python `int()` truncates toward zero, so the
value computed by the source is exactly `⌊len(text) / 4⌋`, i.e. natural
division by 4. -/
def count_tokens (text : List Char) : Nat :=
  text.length / 4

/-- Restatement of the definition used by later arithmetic proofs. -/
theorem count_tokens_eq_div (text : List Char) :
    count_tokens text = text.length / 4 := rfl

/-- Modelled from the spec: the spec's own estimation formula
`ceil(len(text) * K)` with `K = 0.25`, i.e. `⌈len/4⌉`. -/
def spec_ceil_estimate (len : Nat) : Nat := (len + 3) / 4

/-- The truncation note appended by `truncate_chunk_to_token_limit`. -/
def TRUNCATION_MARKER : List Char :=
  ("\n\n[... chunk truncated due to token limit ...]").toList

/-- Binary search of `truncate_chunk_to_token_limit`: scans the prefix
length interval `[left, right)` keeping `best`, the longest prefix length
seen whose token count fits within `m`; `(left + right) / 2` is the
`mid = (left + right) // 2` of the source. -/
def truncBSearch (text : List Char) (m : Nat) (left right best : Nat) : Nat :=
  if _h : left < right then
    if count_tokens (text.take ((left + right) / 2)) ≤ m then
      truncBSearch text m ((left + right) / 2 + 1) right ((left + right) / 2)
    else truncBSearch text m left ((left + right) / 2) best
  else best
termination_by right - left
decreasing_by
  · omega
  · omega

/-- The `while count_tokens(...) > max_tokens: best_length = int(best_length * 0.95)`
recovery loop of `truncate_chunk_to_token_limit` (the truncated multiply by
0.95 is `b * 95 / 100` on naturals). -/
def truncShrink (text : List Char) (m : Nat) (b : Nat) : Nat :=
  if count_tokens (text.take b) ≤ m then b
  else truncShrink text m (b * 95 / 100)
termination_by b
decreasing_by
  rename_i h
  rw [count_tokens_eq_div] at h
  simp only [List.length_take] at h
  omega

/-- The advance of the chunking loop in `chunk_file_content`:
`advance = lines_per_chunk - line_overlap` (a possibly negative Python
int), forced to 1 when `advance <= 0` to prevent an infinite loop. -/
def lineAdvance (lines_per_chunk line_overlap : Nat) : Nat :=
  let advance : Int := (lines_per_chunk : Int) - (line_overlap : Int)
  if advance ≤ 0 then 1 else advance.toNat

theorem lineAdvance_pos (lpc ov : Nat) : 1 ≤ lineAdvance lpc ov := by
  unfold lineAdvance
  dsimp only
  split <;> omega

/-- The `while current_line_idx < len(lines)` loop of `chunk_file_content`:
each step slices `lines[idx : idx + lines_per_chunk]`, records the window
with its 0-based inclusive bounds when non-empty, stops when the slice
reaches the end of the file, and otherwise advances by `lineAdvance`. -/
def lineLoop (lines : List (List Char)) (lines_per_chunk line_overlap idx : Nat) :
    List (List Char × Nat × Nat) :=
  if _h : idx < lines.length then
    let end_idx_slice := min (idx + lines_per_chunk) lines.length
    let chunk_lines := (lines.drop idx).take (end_idx_slice - idx)
    let here := if chunk_lines.isEmpty then []
      else [(List.intercalate ['\n'] chunk_lines, idx, end_idx_slice - 1)]
    if end_idx_slice = lines.length then here
    else
      here ++ lineLoop lines lines_per_chunk line_overlap
        (idx + lineAdvance lines_per_chunk line_overlap)
  else []
termination_by lines.length - idx
decreasing_by
  have := lineAdvance_pos lines_per_chunk line_overlap
  omega

/-- `chunk_file_content(content, lines_per_chunk, line_overlap)`: line-window
chunking; windows that are empty after `strip()` are dropped at the end. -/
def chunk_file_content (content : List Char) (lines_per_chunk line_overlap : Nat) :
    List (List Char × Nat × Nat) :=
  let lines := splitlines content
  if lines.isEmpty then []
  else
    (lineLoop lines lines_per_chunk line_overlap 0).filter
      (fun c => c.1.any (fun ch => !pyIsSpace ch))

theorem lineLoop_nil (lines : List (List Char)) (lpc ov idx : Nat)
    (h : lines.length ≤ idx) : lineLoop lines lpc ov idx = [] := by
  rw [lineLoop]
  simp [Nat.not_lt.mpr h]

/-- One loop step that does not reach the end of the file. -/
theorem lineLoop_cons (lines : List (List Char)) (lpc ov idx : Nat)
    (h1 : idx < lines.length) (h2 : idx + lpc < lines.length) (hlpc : 1 ≤ lpc) :
    lineLoop lines lpc ov idx =
      (List.intercalate ['\n'] ((lines.drop idx).take lpc), idx, idx + lpc - 1) ::
        lineLoop lines lpc ov (idx + lineAdvance lpc ov) := by
  rw [lineLoop, dif_pos h1]
  have he : min (idx + lpc) lines.length = idx + lpc := by omega
  have hsub : idx + lpc - idx = lpc := by omega
  have hne : ((lines.drop idx).take lpc).isEmpty = false := by
    rw [List.isEmpty_eq_false_iff_exists_mem]
    have hlen : ((lines.drop idx).take lpc).length = lpc := by
      rw [List.length_take, List.length_drop]
      omega
    rcases List.exists_mem_of_length_pos (by omega : 0 < ((lines.drop idx).take lpc).length)
      with ⟨a, ha⟩
    exact ⟨a, ha⟩
  simp only [he, hsub, hne, Bool.false_eq_true, if_false]
  rw [if_neg (by omega : ¬ (idx + lpc = lines.length))]
  rw [List.singleton_append]

/-- The final loop step: the slice is clipped to the end of the file and the
loop breaks. -/
theorem lineLoop_last (lines : List (List Char)) (lpc ov idx : Nat)
    (h1 : idx < lines.length) (h2 : lines.length ≤ idx + lpc) :
    lineLoop lines lpc ov idx =
      [(List.intercalate ['\n'] ((lines.drop idx).take (lines.length - idx)), idx,
        lines.length - 1)] := by
  rw [lineLoop, dif_pos h1]
  have he : min (idx + lpc) lines.length = lines.length := by omega
  have hne : ((lines.drop idx).take (lines.length - idx)).isEmpty = false := by
    rw [List.isEmpty_eq_false_iff_exists_mem]
    have hlen : ((lines.drop idx).take (lines.length - idx)).length = lines.length - idx := by
      rw [List.length_take, List.length_drop]
      omega
    rcases List.exists_mem_of_length_pos
      (by omega : 0 < ((lines.drop idx).take (lines.length - idx)).length) with ⟨a, ha⟩
    exact ⟨a, ha⟩
  simp only [he, hne, Bool.false_eq_true, if_false]
  simp

/-- Every window the loop emits is a within-bounds slice of `lines`, its
bounds are ordered, and its text is the newline-join of that slice. -/
theorem lineLoop_sound (lines : List (List Char)) (lpc ov : Nat) (hlpc : 1 ≤ lpc) :
    ∀ idx, ∀ w ∈ lineLoop lines lpc ov idx,
      idx ≤ w.2.1 ∧ w.2.1 ≤ w.2.2 ∧ w.2.2 < lines.length ∧
      w.1 = List.intercalate ['\n'] ((lines.drop w.2.1).take (w.2.2 + 1 - w.2.1)) := by
  have main : ∀ n idx, lines.length - idx ≤ n → ∀ w ∈ lineLoop lines lpc ov idx,
      idx ≤ w.2.1 ∧ w.2.1 ≤ w.2.2 ∧ w.2.2 < lines.length ∧
      w.1 = List.intercalate ['\n'] ((lines.drop w.2.1).take (w.2.2 + 1 - w.2.1)) := by
    intro n
    induction n with
    | zero =>
      intro idx h w hw
      rw [lineLoop_nil lines lpc ov idx (by omega)] at hw
      simp at hw
    | succ n ih =>
      intro idx h w hw
      by_cases hidx : idx < lines.length
      · by_cases hend : idx + lpc < lines.length
        · rw [lineLoop_cons lines lpc ov idx hidx hend hlpc] at hw
          rcases List.mem_cons.mp hw with hw1 | hw1
          · subst hw1
            dsimp only
            refine ⟨le_refl _, by omega, by omega, ?_⟩
            have harg : idx + lpc - 1 + 1 - idx = lpc := by omega
            rw [harg]
          · have hadv := lineAdvance_pos lpc ov
            have hrec := ih (idx + lineAdvance lpc ov) (by omega) w hw1
            exact ⟨by omega, hrec.2.1, hrec.2.2.1, hrec.2.2.2⟩
        · rw [lineLoop_last lines lpc ov idx hidx (by omega)] at hw
          rcases List.mem_cons.mp hw with hw1 | hw1
          · subst hw1
            dsimp only
            refine ⟨le_refl _, by omega, by omega, ?_⟩
            have harg : lines.length - 1 + 1 - idx = lines.length - idx := by omega
            rw [harg]
          · simp at hw1
      · rw [lineLoop_nil lines lpc ov idx (by omega)] at hw
        simp at hw
  intro idx
  exact main (lines.length - idx) idx (le_refl _)

/-- The loop depends on `line_overlap` only through `lineAdvance`. -/
theorem lineLoop_congr (lines : List (List Char)) (lpc ov ov2 : Nat) (hlpc : 1 ≤ lpc)
    (h : lineAdvance lpc ov = lineAdvance lpc ov2) :
    ∀ idx, lineLoop lines lpc ov idx = lineLoop lines lpc ov2 idx := by
  have main : ∀ n idx, lines.length - idx ≤ n →
      lineLoop lines lpc ov idx = lineLoop lines lpc ov2 idx := by
    intro n
    induction n with
    | zero =>
      intro idx hn
      rw [lineLoop_nil lines lpc ov idx (by omega), lineLoop_nil lines lpc ov2 idx (by omega)]
    | succ n ih =>
      intro idx hn
      by_cases hidx : idx < lines.length
      · by_cases hend : idx + lpc < lines.length
        · rw [lineLoop_cons lines lpc ov idx hidx hend hlpc,
            lineLoop_cons lines lpc ov2 idx hidx hend hlpc]
          have hadv := lineAdvance_pos lpc ov
          rw [h, ih (idx + lineAdvance lpc ov2) (by rw [← h]; omega)]
        · rw [lineLoop_last lines lpc ov idx hidx (by omega),
            lineLoop_last lines lpc ov2 idx hidx (by omega)]
      · rw [lineLoop_nil lines lpc ov idx (by omega), lineLoop_nil lines lpc ov2 idx (by omega)]
  intro idx
  exact main (lines.length - idx) idx (le_refl _)

/-- The tail of `truncate_chunk_to_token_limit` once `best_length` is known:
append the truncation note when something was cut; if the resulting text
still busts the budget, drop the note and re-truncate via the 5% shrink
loop. -/
def truncFinish (chunk_text : List Char) (max_tokens best_length : Nat) : List Char :=
  if (chunk_text.take best_length).length < chunk_text.length then
    if count_tokens (chunk_text.take best_length ++ TRUNCATION_MARKER) ≤ max_tokens then
      chunk_text.take best_length ++ TRUNCATION_MARKER
    else chunk_text.take (truncShrink chunk_text max_tokens best_length)
  else
    if count_tokens (chunk_text.take best_length) ≤ max_tokens then
      chunk_text.take best_length
    else chunk_text.take (truncShrink chunk_text max_tokens best_length)

/-- `truncate_chunk_to_token_limit(chunk_text, max_tokens)` with the
estimation token counter. -/
def truncate_chunk_to_token_limit (chunk_text : List Char) (max_tokens : Nat) :
    List Char :=
  if count_tokens chunk_text ≤ max_tokens then chunk_text
  else
    truncFinish chunk_text max_tokens
      (truncBSearch chunk_text max_tokens 0 chunk_text.length 0)

theorem TRUNCATION_MARKER_length : TRUNCATION_MARKER.length = 46 := by decide

theorem truncShrink_le (text : List Char) (m : Nat) :
    ∀ b, count_tokens (text.take (truncShrink text m b)) ≤ m := by
  intro b
  induction b using Nat.strong_induction_on with
  | _ b ih =>
    rw [truncShrink]
    by_cases h : count_tokens (text.take b) ≤ m
    · rw [if_pos h]
      exact h
    · rw [if_neg h]
      have hb : 4 ≤ b := by
        rw [count_tokens_eq_div, List.length_take] at h
        omega
      exact ih (b * 95 / 100) (by omega)

theorem truncShrink_eq (text : List Char) (m b : Nat)
    (h : count_tokens (text.take b) ≤ m) : truncShrink text m b = b := by
  rw [truncShrink, if_pos h]

/-- Postcondition of the binary search: writing `P k` for
`count_tokens(text[:k]) ≤ m`, if `P best`, `¬ P right` and the loop
invariant `left = best + 1 ∨ (left, best) = (0, 0)` hold on entry, then the
returned length `r` satisfies `P r` and `¬ P (r + 1)`. -/
theorem truncBSearch_spec (text : List Char) (m : Nat) :
    ∀ fuel left right best, right - left ≤ fuel → left ≤ right →
      count_tokens (text.take best) ≤ m →
      ¬ count_tokens (text.take right) ≤ m →
      (left = best + 1 ∨ (left = 0 ∧ best = 0)) →
      count_tokens (text.take (truncBSearch text m left right best)) ≤ m ∧
      ¬ count_tokens (text.take (truncBSearch text m left right best + 1)) ≤ m := by
  intro fuel
  induction fuel with
  | zero =>
    intro left right best hfuel hlr hbest hright hinv
    have heq : left = right := by omega
    rw [truncBSearch, dif_neg (by omega : ¬ left < right)]
    rcases hinv with hinv | hinv
    · refine ⟨hbest, ?_⟩
      rw [← hinv, heq]
      exact hright
    · exfalso
      apply hright
      have h0 : right = 0 := by omega
      rw [h0]
      simp [count_tokens]
  | succ fuel ih =>
    intro left right best hfuel hlr hbest hright hinv
    by_cases hcase : left < right
    · rw [truncBSearch, dif_pos hcase]
      by_cases hmid : count_tokens (text.take ((left + right) / 2)) ≤ m
      · rw [if_pos hmid]
        exact ih ((left + right) / 2 + 1) right ((left + right) / 2)
          (by omega) (by omega) hmid hright (Or.inl rfl)
      · rw [if_neg hmid]
        exact ih left ((left + right) / 2) best (by omega) (by omega) hbest hmid hinv
    · rw [truncBSearch, dif_neg hcase]
      have heq : left = right := by omega
      rcases hinv with hinv | hinv
      · refine ⟨hbest, ?_⟩
        rw [← hinv, heq]
        exact hright
      · exfalso
        apply hright
        have h0 : right = 0 := by omega
        rw [h0]
        simp [count_tokens]

/-- In the truncating branch the binary search returns exactly `4*m + 3`
(the longest prefix length whose estimated count fits), the marker-appended
candidate busts the budget, so the final result is the marker-free prefix
`text[:4*m+3]`. -/
theorem truncate_of_over (t : List Char) (m : Nat) (h : ¬ count_tokens t ≤ m) :
    truncBSearch t m 0 t.length 0 = 4 * m + 3 ∧ 4 * m + 3 < t.length ∧
    truncate_chunk_to_token_limit t m = t.take (4 * m + 3) := by
  obtain ⟨hP, hP1⟩ := truncBSearch_spec t m t.length 0 t.length 0 (by omega) (by omega)
    (by simp [count_tokens]) (by rw [List.take_length]; exact h) (Or.inr ⟨rfl, rfl⟩)
  rw [count_tokens_eq_div, List.length_take] at hP hP1
  have hbe : truncBSearch t m 0 t.length 0 = 4 * m + 3 := by omega
  have hlen : 4 * m + 3 < t.length := by omega
  refine ⟨hbe, hlen, ?_⟩
  rw [truncate_chunk_to_token_limit, if_neg h, truncFinish, hbe]
  rw [if_pos (by rw [List.length_take]; omega)]
  have hmark : ¬ count_tokens (t.take (4 * m + 3) ++ TRUNCATION_MARKER) ≤ m := by
    rw [count_tokens_eq_div, List.length_append, List.length_take, TRUNCATION_MARKER_length]
    omega
  rw [if_neg hmark]
  rw [truncShrink_eq t m (4 * m + 3) (by rw [count_tokens_eq_div, List.length_take]; omega)]

/-- The result of `truncate_chunk_to_token_limit` always fits the budget
(under the estimation counter). -/
theorem truncate_le (t : List Char) (m : Nat) :
    count_tokens (truncate_chunk_to_token_limit t m) ≤ m := by
  rw [truncate_chunk_to_token_limit]
  by_cases h : count_tokens t ≤ m
  · rw [if_pos h]
    exact h
  · rw [if_neg h, truncFinish]
    by_cases h1 : (t.take (truncBSearch t m 0 t.length 0)).length < t.length
    · rw [if_pos h1]
      by_cases h2 : count_tokens
          (t.take (truncBSearch t m 0 t.length 0) ++ TRUNCATION_MARKER) ≤ m
      · rw [if_pos h2]
        exact h2
      · rw [if_neg h2]
        exact truncShrink_le t m _
    · rw [if_neg h1]
      by_cases h2 : count_tokens (t.take (truncBSearch t m 0 t.length 0)) ≤ m
      · rw [if_pos h2]
        exact h2
      · rw [if_neg h2]
        exact truncShrink_le t m _

/-- Python `\w` on the ASCII range: letters, digits, underscore. -/
def isWordChar (c : Char) : Bool := c.isAlphanum || c = '_'

/-- Match a literal character sequence at the head of `l`, returning the
remaining input (a regex literal never backtracks internally). -/
def matchLit : List Char → List Char → Option (List Char)
  | [], l => some l
  | _ :: _, [] => none
  | c :: p, d :: l => if c = d then matchLit p l else none

/-- Regex `\s+`, greedy.  Every use site is followed by a token that cannot
begin with a space, so greedy matching without backtracking is exact. -/
def matchSpaces1 : List Char → Option (List Char)
  | [] => none
  | c :: t => if pyIsSpace c then some (List.dropWhile pyIsSpace t) else none

/-- Regex `\w+`, greedy.  Every use site is followed by a token that cannot
begin with a word character, so greedy matching is exact. -/
def matchWord1 : List Char → Option (List Char)
  | [] => none
  | c :: t => if isWordChar c then some (List.dropWhile isWordChar t) else none

def kwAsync : List Char := ("async").toList

/-- Regex `(?:async\s+)?`: both backtracking alternatives, tried in the
regex engine's order (consume `async\s+` first, then the empty option). -/
def afterOptAsync (l : List Char) : List (List Char) :=
  match (matchLit kwAsync l).bind matchSpaces1 with
  | some r => [r, l]
  | none => [l]

def CLASS_KEYWORDS : List (List Char) :=
  [("class").toList, ("interface").toList, ("struct").toList]

/-- `class_pattern`: regex `^\s*(class|interface|struct)\s+\w+`. -/
def class_match (line : List Char) : Bool :=
  CLASS_KEYWORDS.any (fun kw =>
    (((matchLit kw (List.dropWhile pyIsSpace line)).bind matchSpaces1).bind matchWord1).isSome)

def kwDef : List Char := ("def").toList

/-- `py_function_pattern`: regex `^\s*(?:async\s+)?def\s+\w+\s*\(`. -/
def py_function_match (line : List Char) : Bool :=
  (afterOptAsync (List.dropWhile pyIsSpace line)).any (fun l =>
    match ((matchLit kwDef l).bind matchSpaces1).bind matchWord1 with
    | some r => (matchLit ['('] (List.dropWhile pyIsSpace r)).isSome
    | none => false)

def FUNC_KEYWORDS : List (List Char) :=
  [("def").toList, ("function").toList, ("func").toList, ("public").toList,
   ("private").toList, ("protected").toList, ("static").toList, ("void").toList,
   ("int").toList, ("float").toList, ("double").toList, ("String").toList]

/-- `function_pattern`: regex
`^\s*(def|function|func|public|private|protected|static|void|int|float|double|String)\s+\w+\s*\(`;
alternatives are tried in order with backtracking (relevant for
`function` vs `func`). -/
def function_match (line : List Char) : Bool :=
  FUNC_KEYWORDS.any (fun kw =>
    match ((matchLit kw (List.dropWhile pyIsSpace line)).bind matchSpaces1).bind matchWord1 with
    | some r => (matchLit ['('] (List.dropWhile pyIsSpace r)).isSome
    | none => false)

/-- Regex `.*` followed by continuation `k`: `.` matches any character but
`\n`; the Boolean match succeeds iff some split point does. -/
def dotStarThen (k : List Char → Bool) : List Char → Bool
  | [] => k []
  | c :: t => k (c :: t) || (!(c = '\n') && dotStarThen k t)

/-- Regex `\w+\s*=\s*` (the leading `\w+` cannot backtrack into `\s*=`). -/
def afterEq (l : List Char) : Option (List Char) :=
  match matchWord1 l with
  | some r =>
    match matchLit ['='] (List.dropWhile pyIsSpace r) with
    | some r2 => some (List.dropWhile pyIsSpace r2)
    | none => none
  | none => none

def arrowTail : List Char → Bool
  | ')' :: r => (matchLit ['=', '>'] (List.dropWhile pyIsSpace r)).isSome
  | _ => false

/-- Regex `\(.*\)\s*=>`. -/
def parenArrowAt : List Char → Bool
  | '(' :: t => dotStarThen arrowTail t
  | _ => false

def kwFunction : List Char := ("function").toList

/-- `js_function_pattern`: regex
`^\s*(?:async\s+)?(?:function\s+\w+|\w+\s*=\s*(?:async\s+)?function|\w+\s*=\s*\(.*\)\s*=>|(?:async\s+)?\(.*\)\s*=>)`. -/
def js_function_match (line : List Char) : Bool :=
  (afterOptAsync (List.dropWhile pyIsSpace line)).any (fun l =>
    (((matchLit kwFunction l).bind matchSpaces1).bind matchWord1).isSome ||
    (match afterEq l with
     | some r => (afterOptAsync r).any (fun r2 => (matchLit kwFunction r2).isSome)
     | none => false) ||
    (match afterEq l with
     | some r => parenArrowAt r
     | none => false) ||
    (afterOptAsync l).any parenArrowAt)

def closeParenTail : List Char → Bool
  | ')' :: _ => true
  | _ => false

/-- `js_class_method_pattern`: regex `^\s*(?:async\s+)?\w+\s*\(.*\)`. -/
def js_class_method_match (line : List Char) : Bool :=
  (afterOptAsync (List.dropWhile pyIsSpace line)).any (fun l =>
    match matchWord1 l with
    | some r =>
      match List.dropWhile pyIsSpace r with
      | '(' :: t => dotStarThen closeParenTail t
      | _ => false
    | none => false)

def tripleDouble : List Char := [Char.ofNat 34, Char.ofNat 34, Char.ofNat 34]

def tripleSingle : List Char := [Char.ofNat 39, Char.ofNat 39, Char.ofNat 39]

/-- `line.strip().startswith('"""') or line.strip().startswith("'''")`
(leading strip suffices for a `startswith` test). -/
def startsDocstring (line : List Char) : Bool :=
  List.isPrefixOf tripleDouble (List.dropWhile pyIsSpace line) ||
  List.isPrefixOf tripleSingle (List.dropWhile pyIsSpace line)

/-- The boundary-detection scan of `_chunk_code_semantic`: emits the line
indices appended to `boundaries`, in order (an index may appear twice when
both the class pattern and a function pattern match); Python-docstring
lines toggle `in_docstring` and are skipped, as is everything inside a
docstring (both only for `.py` files). -/
def detectBoundariesGo (file_type : String) : List (List Char) → Nat → Bool → List Nat
  | [], _, _ => []
  | line :: rest, i, in_docstring =>
    if file_type = ".py" && startsDocstring line then
      detectBoundariesGo file_type rest (i + 1) (!in_docstring)
    else if file_type = ".py" && in_docstring then
      detectBoundariesGo file_type rest (i + 1) in_docstring
    else
      (if class_match line then [i] else []) ++
      (if (if file_type = ".py" && py_function_match line then true
           else if (file_type = ".js" || file_type = ".ts") &&
               (js_function_match line || js_class_method_match line) then true
           else function_match line) then [i] else []) ++
      detectBoundariesGo file_type rest (i + 1) in_docstring

/-- All semantic boundary line indices of a file, in emission order. -/
def detectBoundaries (lines : List (List Char)) (file_type : String) : List Nat :=
  detectBoundariesGo file_type lines 0 false

/-- Insertion into a sorted list (building block of the `sorted` model). -/
def insertSorted (x : Nat) : List Nat → List Nat
  | [] => [x]
  | y :: t => if x ≤ y then x :: y :: t else y :: insertSorted x t

/-- Model of Python `sorted` on a list of ints (insertion sort). -/
def sortNat (l : List Nat) : List Nat := l.foldr insertSorted []

/-- Remove adjacent duplicates; composed with `sortNat` this is exactly
Python's `sorted(set(...))`. -/
def dedupAdj : List Nat → List Nat
  | [] => []
  | [x] => [x]
  | x :: y :: t => if x = y then dedupAdj (y :: t) else x :: dedupAdj (y :: t)

/-- `"\n".join(lines[s : e + 1])` — chunk text from an inclusive 0-based
line range. -/
def sliceJoin (lines : List (List Char)) (s e : Nat) : List Char :=
  List.intercalate ['\n'] ((lines.drop s).take (e + 1 - s))

/-- The `for i in range(len(boundaries) - 1)` loop of `_chunk_code_semantic`:
each consecutive boundary pair `(b1, b2)` yields candidate
`lines[b1 : b2]` with inclusive end `b2 - 1`, skipped when empty
(`b2 - 1 < b1`, i.e. `b2 ≤ b1` over ℤ) or whitespace-only. -/
def consecChunks (lines : List (List Char)) : List Nat → List (List Char × Nat × Nat)
  | b1 :: b2 :: rest =>
    (if b2 ≤ b1 then []
     else if (sliceJoin lines b1 (b2 - 1)).any (fun ch => !pyIsSpace ch) then
       [(sliceJoin lines b1 (b2 - 1), b1, b2 - 1)]
     else []) ++ consecChunks lines (b2 :: rest)
  | _ => []

/-- Source constant `MAX_LINES_PER_SEMANTIC_CHUNK = 100`. -/
def MAX_LINES_PER_SEMANTIC_CHUNK : Nat := 100

/-- The final stage of `_chunk_code_semantic`: a candidate longer than 100
lines is re-split with the line chunker (100-line window, 5-line overlap)
and sub-chunk line numbers are shifted by the candidate's start line. -/
def resplitLarge (chunks : List (List Char × Nat × Nat)) : List (List Char × Nat × Nat) :=
  chunks.flatMap (fun c =>
    if MAX_LINES_PER_SEMANTIC_CHUNK < (splitlines c.1).length then
      (chunk_file_content c.1 MAX_LINES_PER_SEMANTIC_CHUNK 5).map
        (fun s => (s.1, c.2.1 + s.2.1, c.2.1 + s.2.2))
    else [c])

/-- `_chunk_code_semantic(lines, file_type)`: scan for boundaries; with no
boundary return no chunks; otherwise chunk between
`sorted(set([0] + boundaries + [len(lines)]))` and re-split oversized
candidates. -/
def _chunk_code_semantic (lines : List (List Char)) (file_type : String) :
    List (List Char × Nat × Nat) :=
  if detectBoundaries lines file_type = [] then []
  else
    resplitLarge (consecChunks lines
      (dedupAdj (sortNat (0 :: (detectBoundaries lines file_type ++ [lines.length])))))

/-- Code-file suffixes eligible for semantic chunking. -/
def SEMANTIC_SUFFIXES : List String :=
  [".py", ".js", ".ts", ".java", ".c", ".cpp", ".cs", ".go", ".php", ".rb"]

/-- `chunk_file_content_semantic(content, file_path, lines_per_chunk,
line_overlap)`; the `suffix` argument stands for
`file_path.suffix.lower()`.  Semantic chunks are used only when there is
more than one of them (`if chunks and len(chunks) > 1`); otherwise the
function falls back to plain line chunking. -/
def chunk_file_content_semantic (content : List Char) (suffix : String)
    (lines_per_chunk line_overlap : Nat) : List (List Char × Nat × Nat) :=
  if (splitlines content).isEmpty then []
  else if suffix ∈ SEMANTIC_SUFFIXES then
    if _chunk_code_semantic (splitlines content) suffix ≠ [] ∧
        1 < (_chunk_code_semantic (splitlines content) suffix).length then
      _chunk_code_semantic (splitlines content) suffix
    else chunk_file_content content lines_per_chunk line_overlap
  else chunk_file_content content lines_per_chunk line_overlap

/-- One decimal digit as a character (`d < 10`). -/
def digitChar (d : Nat) : Char := Char.ofNat (48 + d)

/-- Helper for decimal rendering: peel the digits of `n` onto `acc`. -/
def natDecimalAux : Nat → List Char → List Char
  | 0, acc => acc
  | n + 1, acc => natDecimalAux ((n + 1) / 10) (digitChar ((n + 1) % 10) :: acc)
termination_by n _ => n
decreasing_by omega

/-- Python `str(i)` for a non-negative int: its decimal digits. -/
def natDecimal (n : Nat) : List Char :=
  if n = 0 then ['0'] else natDecimalAux n []

/-- `chunk_id = f"{relative_path}:{commit_sha}:{chunk_index}"`. -/
def chunk_id (relative_path commit_sha : List Char) (chunk_index : Nat) : List Char :=
  relative_path ++ [':'] ++ commit_sha ++ [':'] ++ natDecimal chunk_index

theorem natDecimalAux_mem (n : Nat) : ∀ acc c, c ∈ natDecimalAux n acc →
    c ∈ acc ∨ ∃ d, d < 10 ∧ c = digitChar d := by
  induction n using Nat.strong_induction_on with
  | _ n ih =>
    intro acc c hc
    match n with
    | 0 =>
      rw [natDecimalAux] at hc
      exact Or.inl hc
    | n + 1 =>
      rw [natDecimalAux] at hc
      rcases ih ((n + 1) / 10) (by omega) _ c hc with h | h
      · rcases List.mem_cons.mp h with h1 | h1
        · exact Or.inr ⟨(n + 1) % 10, by omega, h1⟩
        · exact Or.inl h1
      · exact Or.inr h

theorem digitChar_ne_colon (d : Nat) (hd : d < 10) : digitChar d ≠ ':' := by
  interval_cases d <;> decide

/-- Decimal renderings never contain the `':'` separator. -/
theorem natDecimal_ne_colon (n : Nat) : ∀ c ∈ natDecimal n, c ≠ ':' := by
  intro c hc
  unfold natDecimal at hc
  split at hc
  · rw [List.mem_singleton] at hc
    subst hc
    decide
  · rcases natDecimalAux_mem n [] c hc with h | h
    · simp at h
    · obtain ⟨d, hd, rfl⟩ := h
      exact digitChar_ne_colon d hd

/-- Splitting at a separator that cannot occur in the first component is
unambiguous. -/
theorem sepSplit_inj : ∀ (a1 x1 a2 x2 : List Char),
    (∀ c ∈ a1, c ≠ ':') → (∀ c ∈ a2, c ≠ ':') →
    a1 ++ ':' :: x1 = a2 ++ ':' :: x2 → a1 = a2 ∧ x1 = x2 := by
  intro a1
  induction a1 with
  | nil =>
    intro x1 a2 x2 h1 h2 heq
    cases a2 with
    | nil => simpa using heq
    | cons c a2t =>
      rw [List.nil_append, List.cons_append, List.cons_eq_cons] at heq
      exact absurd heq.1.symm (h2 c (List.mem_cons_self c a2t))
  | cons c a1t ih =>
    intro x1 a2 x2 h1 h2 heq
    cases a2 with
    | nil =>
      rw [List.nil_append, List.cons_append, List.cons_eq_cons] at heq
      exact absurd heq.1 (h1 c (List.mem_cons_self c a1t))
    | cons c2 a2t =>
      rw [List.cons_append, List.cons_append, List.cons_eq_cons] at heq
      obtain ⟨rfl, heq2⟩ := heq
      obtain ⟨ha, hx⟩ := ih x1 a2t x2
        (fun d hd => h1 d (List.mem_cons_of_mem c hd))
        (fun d hd => h2 d (List.mem_cons_of_mem c hd)) heq2
      exact ⟨by rw [ha], hx⟩

/-- Source constant `batch_size = 5` of the OpenAI upsert path. -/
def batch_size : Nat := 5

/-- Source constant `max_tokens_per_batch = OPENAI_MAX_TOKENS - 500`. -/
def max_tokens_per_batch : Nat := OPENAI_MAX_TOKENS - 500

/-- A write issued by the OpenAI-path upsert loop of `index_file`: either a
batch of chunks (represented by their token counts) or an individually
submitted oversized chunk. -/
inductive Submission where
  | batch (chunks : List Nat)
  | single (chunk : Nat)
deriving DecidableEq

/-- The inner `while i < len(ids_list) and len(batch_ids) < batch_size`
accumulation loop of `index_file`, over the chunk token counts `ts`; `bt`
is `batch_tokens`.  Returns the writes issued during this pass, the new
index `i`, and the batch under construction.  Note that in the
oversized-chunk branch the source flushes `batch_ids` but does NOT clear
it, which this model reproduces. -/
def batchInner (ts : List Nat) (i : Nat) (batch : List Nat) (bt : Nat) :
    List Submission × Nat × List Nat :=
  if h : i < ts.length ∧ batch.length < batch_size then
    if OPENAI_MAX_TOKENS < ts.get ⟨i, h.1⟩ then
      ((if batch.isEmpty then [] else [Submission.batch batch]) ++
        Submission.single (ts.get ⟨i, h.1⟩) :: (batchInner ts (i + 1) batch bt).1,
       (batchInner ts (i + 1) batch bt).2)
    else if max_tokens_per_batch < bt + ts.get ⟨i, h.1⟩ ∧ batch.isEmpty = false then
      ([], i, batch)
    else
      batchInner ts (i + 1) (batch ++ [ts.get ⟨i, h.1⟩]) (bt + ts.get ⟨i, h.1⟩)
  else ([], i, batch)
termination_by ts.length - i
decreasing_by
  · omega
  · omega

theorem batchInner_i_le (ts : List Nat) : ∀ fuel i batch bt, ts.length - i ≤ fuel →
    i ≤ (batchInner ts i batch bt).2.1 := by
  intro fuel
  induction fuel with
  | zero =>
    intro i batch bt hfuel
    rw [batchInner]
    split
    · rename_i h
      omega
    · exact le_refl i
  | succ fuel ih =>
    intro i batch bt hfuel
    rw [batchInner]
    split
    · rename_i h
      split
      · have := ih (i + 1) batch bt (by omega)
        dsimp only
        omega
      · split
        · exact le_refl i
        · have := ih (i + 1) (batch ++ [ts.get ⟨i, h.1⟩]) (bt + ts.get ⟨i, h.1⟩) (by omega)
          omega
    · exact le_refl i

/-- Entered with an empty batch, the inner loop always consumes at least
one chunk (so the outer loop terminates). -/
theorem batchInner_progress (ts : List Nat) (i bt : Nat) (h : i < ts.length) :
    i < (batchInner ts i ([] : List Nat) bt).2.1 := by
  rw [batchInner]
  rw [dif_pos (by constructor <;> simp [h, batch_size])]
  split
  · have := batchInner_i_le ts (ts.length - (i + 1)) (i + 1) ([] : List Nat) bt (le_refl _)
    dsimp only
    omega
  · split
    · rename_i hcond
      simp at hcond
    · have := batchInner_i_le ts (ts.length - (i + 1)) (i + 1)
        (([] : List Nat) ++ [ts.get ⟨i, h⟩]) (bt + ts.get ⟨i, h⟩) (le_refl _)
      omega

/-- The outer `while i < len(ids_list)` loop: run the accumulation pass,
flush the pending batch if non-empty, repeat. -/
def batchOuter (ts : List Nat) (i : Nat) : List Submission :=
  if h : i < ts.length then
    (batchInner ts i [] 0).1 ++
    (if (batchInner ts i [] 0).2.2.isEmpty then []
     else [Submission.batch (batchInner ts i [] 0).2.2]) ++
    batchOuter ts (batchInner ts i [] 0).2.1
  else []
termination_by ts.length - i
decreasing_by
  have := batchInner_progress ts i 0 h
  omega

/-- The OpenAI-path batch assembly of `index_file`, as a function of the
chunk token counts. -/
def assembleBatches (ts : List Nat) : List Submission := batchOuter ts 0

/-- The invariant satisfied by every assembled batch: at most `batch_size`
chunks, a token sum within `max_tokens_per_batch` whenever the batch holds
at least two chunks, and each member within the provider maximum. -/
def goodBatch (b : List Nat) : Prop :=
  b.length ≤ batch_size ∧ (2 ≤ b.length → b.sum ≤ max_tokens_per_batch) ∧
  ∀ t ∈ b, t ≤ OPENAI_MAX_TOKENS

theorem batchInner_invariant (ts : List Nat) : ∀ fuel i batch bt,
    ts.length - i ≤ fuel → bt = batch.sum → goodBatch batch →
    (∀ b, Submission.batch b ∈ (batchInner ts i batch bt).1 → goodBatch b) ∧
    goodBatch (batchInner ts i batch bt).2.2 := by
  intro fuel
  induction fuel with
  | zero =>
    intro i batch bt hfuel hbt hgood
    rw [batchInner, dif_neg (by omega)]
    constructor
    · intro b hb
      simp at hb
    · exact hgood
  | succ fuel ih =>
    intro i batch bt hfuel hbt hgood
    by_cases hg : i < ts.length ∧ batch.length < batch_size
    · rw [batchInner, dif_pos hg]
      by_cases hover : OPENAI_MAX_TOKENS < ts.get ⟨i, hg.1⟩
      · rw [if_pos hover]
        obtain ⟨ihsubs, ihbatch⟩ := ih (i + 1) batch bt (by omega) hbt hgood
        constructor
        · intro b hb
          dsimp only at hb
          rw [List.mem_append] at hb
          rcases hb with hb | hb
          · split at hb
            · simp at hb
            · rw [List.mem_singleton, Submission.batch.injEq] at hb
              subst hb
              exact hgood
          · rw [List.mem_cons] at hb
            rcases hb with hb | hb
            · simp at hb
            · exact ihsubs b hb
        · exact ihbatch
      · rw [if_neg hover]
        by_cases hbreak : max_tokens_per_batch < bt + ts.get ⟨i, hg.1⟩ ∧ batch.isEmpty = false
        · rw [if_pos hbreak]
          constructor
          · intro b hb
            simp at hb
          · exact hgood
        · rw [if_neg hbreak]
          obtain ⟨hl, hs, hm⟩ := hgood
          apply ih (i + 1) (batch ++ [ts.get ⟨i, hg.1⟩]) _ (by omega)
          · rw [List.sum_append, List.sum_cons, List.sum_nil, hbt]
            omega
          · refine ⟨?_, ?_, ?_⟩
            · rw [List.length_append, List.length_singleton]
              have := hg.2
              omega
            · intro h2
              rw [List.length_append, List.length_singleton] at h2
              have hlen1 : 1 ≤ batch.length := by omega
              have hne : batch.isEmpty = false := by
                cases batch with
                | nil => simp at hlen1
                | cons a t => rfl
              have hsum : bt + ts.get ⟨i, hg.1⟩ ≤ max_tokens_per_batch := by
                rcases not_and_or.mp hbreak with hcase | hcase
                · omega
                · exact absurd hne hcase
              rw [List.sum_append, List.sum_cons, List.sum_nil, add_zero, ← hbt]
              exact hsum
            · intro t ht
              rw [List.mem_append] at ht
              rcases ht with ht | ht
              · exact hm t ht
              · rw [List.mem_singleton] at ht
                subst ht
                omega
    · rw [batchInner, dif_neg hg]
      constructor
      · intro b hb
        simp at hb
      · exact hgood

theorem batchOuter_invariant (ts : List Nat) : ∀ fuel i, ts.length - i ≤ fuel →
    ∀ b, Submission.batch b ∈ batchOuter ts i → goodBatch b := by
  intro fuel
  induction fuel with
  | zero =>
    intro i hfuel b hb
    rw [batchOuter, dif_neg (by omega)] at hb
    simp at hb
  | succ fuel ih =>
    intro i hfuel b hb
    by_cases hi : i < ts.length
    · rw [batchOuter, dif_pos hi] at hb
      have hgoodnil : goodBatch ([] : List Nat) := by
        refine ⟨by decide, ?_, ?_⟩
        · intro h2
          simp at h2
        · intro t ht
          simp at ht
      obtain ⟨hsubs, hbatch⟩ := batchInner_invariant ts (ts.length - i) i [] 0
        (le_refl _) (by simp) hgoodnil
      rw [List.mem_append, List.mem_append] at hb
      rcases hb with (hb | hb) | hb
      · exact hsubs b hb
      · split at hb
        · simp at hb
        · rw [List.mem_singleton, Submission.batch.injEq] at hb
          subst hb
          exact hbatch
      · have hprog := batchInner_progress ts i 0 hi
        exact ih ((batchInner ts i [] 0).2.1) (by omega) b hb
    · rw [batchOuter, dif_neg hi] at hb
      simp at hb

/-- Outcome of the collection-acquisition step of `index_file`
(`client.get_or_create_collection` and its exception handlers in the
`try`/`except ValueError`/`except Exception` ladder). -/
inductive AcquireOutcome where
  | ok                -- get_or_create_collection succeeded
  | efMismatch        -- ValueError: embedding function name mismatch
  | otherValueError   -- any other ValueError
  | notFoundRecovered -- NotFoundError path, retry created the collection
  | notFoundFailed    -- NotFoundError path, retry failed too
  | otherError        -- any other exception
deriving DecidableEq

/-- The result of `index_file` as a function of the collection-acquisition
outcome; `pipeline` abstracts whether the rest of the per-file pipeline
(chunk, truncate, upsert) succeeds once a collection handle exists.  Every
acquisition-failure branch, including the embedding-function mismatch, logs
a descriptive error and merely returns `False` — nothing is raised. -/
def index_file_result (acq : AcquireOutcome) (pipeline : Bool) : Bool :=
  match acq with
  | AcquireOutcome.ok => pipeline
  | AcquireOutcome.notFoundRecovered => pipeline
  | _ => false

/-- The `for file_path in files_to_index:` loop of `index_git_files`: every
file is passed to `index_file` unconditionally and successes are counted.
Returns `(indexed_count, per-file results in order)`. -/
def index_git_files_loop (files : List (AcquireOutcome × Bool)) : Nat × List Bool :=
  files.foldl
    (fun s f =>
      (if index_file_result f.1 f.2 then s.1 + 1 else s.1,
       s.2 ++ [index_file_result f.1 f.2]))
    (0, [])

theorem index_git_files_loop_general (files : List (AcquireOutcome × Bool)) :
    ∀ (c : Nat) (l : List Bool),
      files.foldl
        (fun s f =>
          (if index_file_result f.1 f.2 then s.1 + 1 else s.1,
           s.2 ++ [index_file_result f.1 f.2]))
        (c, l) =
      (c + ((files.map fun f => index_file_result f.1 f.2).count true),
       l ++ (files.map fun f => index_file_result f.1 f.2)) := by
  induction files with
  | nil =>
    intro c l
    simp
  | cons f fs ih =>
    intro c l
    rw [List.foldl_cons, List.map_cons, List.count_cons]
    cases hr : index_file_result f.1 f.2 with
    | true =>
      rw [if_pos rfl, ih]
      simp [List.append_assoc]
      omega
    | false =>
      rw [if_neg (by simp), ih]
      simp [List.append_assoc]

theorem intercalate_singleton_nl (x : List Char) : List.intercalate ['\n'] [x] = x := by
  simp [List.intercalate]

theorem intercalate_cons_nl (x y : List Char) (t : List (List Char)) :
    List.intercalate ['\n'] (x :: y :: t) = x ++ '\n' :: List.intercalate ['\n'] (y :: t) := by
  simp [List.intercalate, List.intersperse]

theorem mem_intercalate_of_mem (L : List (List Char)) :
    ∀ l ∈ L, ∀ c ∈ l, c ∈ List.intercalate ['\n'] L := by
  induction L with
  | nil =>
    intro l hl
    simp at hl
  | cons x t ih =>
    intro l hl c hc
    cases t with
    | nil =>
      rw [List.mem_singleton] at hl
      subst hl
      rw [intercalate_singleton_nl]
      exact hc
    | cons y t2 =>
      rw [intercalate_cons_nl]
      rcases List.mem_cons.mp hl with h | h
      · subst h
        exact List.mem_append_left _ hc
      · exact List.mem_append_right _ (List.mem_cons_of_mem _ (ih l h c hc))

theorem nobreak_ne_cr (c : Char) (h : isLineBreak c = false) : ¬ (c = '\r') := by
  intro hh
  rw [hh] at h
  exact absurd h (by decide)

theorem normalizeCRLF_nobreak (l : List Char) :
    (∀ c ∈ l, isLineBreak c = false) → normalizeCRLF l = l := by
  induction l with
  | nil =>
    intro _
    rfl
  | cons c t ih =>
    intro h
    cases t with
    | nil => rfl
    | cons d t2 =>
      rw [normalizeCRLF,
        if_neg (by simp [nobreak_ne_cr c (h c (List.mem_cons_self c _))])]
      rw [ih (fun x hx => h x (List.mem_cons_of_mem c hx))]

theorem normalizeCRLF_append_nl (l : List Char) :
    ∀ r, (∀ c ∈ l, isLineBreak c = false) →
    normalizeCRLF (l ++ '\n' :: r) = l ++ '\n' :: normalizeCRLF r := by
  induction l with
  | nil =>
    intro r _
    cases r with
    | nil => rfl
    | cons d t =>
      rw [List.nil_append, normalizeCRLF, if_neg (by simp)]
      rfl
  | cons c l2 ih =>
    intro r h
    have hc := nobreak_ne_cr c (h c (List.mem_cons_self c l2))
    cases l2 with
    | nil =>
      show normalizeCRLF (c :: '\n' :: r) = c :: '\n' :: normalizeCRLF r
      rw [normalizeCRLF, if_neg (by simp [hc])]
      have := ih r (by intro x hx; simp at hx)
      simp only [List.nil_append] at this
      rw [this]
    | cons c2 l3 =>
      show normalizeCRLF (c :: c2 :: (l3 ++ '\n' :: r)) = c :: c2 :: l3 ++ '\n' :: normalizeCRLF r
      rw [normalizeCRLF, if_neg (by simp [hc])]
      have := ih r (fun x hx => h x (List.mem_cons_of_mem c hx))
      simp only [List.cons_append] at this
      rw [this]
      simp

theorem splitlinesAux_nobreak (l : List Char) :
    ∀ acc, (∀ c ∈ l, isLineBreak c = false) →
    splitlinesAux l acc = [acc.reverse ++ l] := by
  induction l with
  | nil =>
    intro acc _
    rw [splitlinesAux]
    simp
  | cons c t ih =>
    intro acc h
    have hc := h c (List.mem_cons_self c t)
    rw [splitlinesAux, if_neg (by rw [hc]; simp)]
    rw [ih (c :: acc) (fun x hx => h x (List.mem_cons_of_mem c hx))]
    simp

theorem splitlinesAux_line (l : List Char) :
    ∀ (acc r : List Char), (∀ c ∈ l, isLineBreak c = false) →
    splitlinesAux (l ++ '\n' :: r) acc =
      if r.isEmpty then [acc.reverse ++ l]
      else (acc.reverse ++ l) :: splitlinesAux r [] := by
  induction l with
  | nil =>
    intro acc r _
    rw [List.nil_append, splitlinesAux, if_pos (by decide)]
    split <;> simp
  | cons c t ih =>
    intro acc r h
    have hc := h c (List.mem_cons_self c t)
    rw [List.cons_append, splitlinesAux, if_neg (by rw [hc]; simp)]
    rw [ih (c :: acc) r (fun x hx => h x (List.mem_cons_of_mem c hx))]
    split <;> simp

theorem splitlines_ne_nil_eq (s : List Char) (h : s ≠ []) :
    splitlines s = splitlinesAux (normalizeCRLF s) [] := by
  cases s with
  | nil => exact absurd rfl h
  | cons c t => rfl

theorem normalizeCRLF_ne_nil (r : List Char) (h : r ≠ []) : normalizeCRLF r ≠ [] := by
  cases r with
  | nil => exact absurd rfl h
  | cons c t =>
    cases t with
    | nil => simp [normalizeCRLF]
    | cons d t2 =>
      rw [normalizeCRLF]
      split <;> simp

theorem intercalate_eq_nil_nl (L : List (List Char)) (hne : L ≠ [])
    (h : List.intercalate ['\n'] L = []) : L = [([] : List Char)] := by
  cases L with
  | nil => exact absurd rfl hne
  | cons x t =>
    cases t with
    | nil =>
      rw [intercalate_singleton_nl] at h
      rw [h]
    | cons y t2 =>
      rw [intercalate_cons_nl] at h
      simp at h

/-- Splitting a newline-join of break-free lines recovers the lines, except
that one trailing empty line is absorbed into a trailing terminator: the
result is a prefix of the original lines missing at most the last one. -/
theorem splitlines_intercalate_prefix (L : List (List Char)) :
    L ≠ [] → (∀ l ∈ L, ∀ c ∈ l, isLineBreak c = false) →
    splitlines (List.intercalate ['\n'] L) <+: L ∧
    L.length ≤ (splitlines (List.intercalate ['\n'] L)).length + 1 := by
  induction L with
  | nil =>
    intro h _
    exact absurd rfl h
  | cons x t ih =>
    intro _ hfree
    cases t with
    | nil =>
      rw [intercalate_singleton_nl]
      by_cases hx : x = []
      · subst hx
        constructor
        · show splitlines [] <+: [[]]
          exact List.nil_prefix
        · simp [splitlines]
      · rw [splitlines_ne_nil_eq x hx,
          normalizeCRLF_nobreak x (hfree x (List.mem_cons_self x _)),
          splitlinesAux_nobreak x [] (hfree x (List.mem_cons_self x _))]
        constructor
        · simp
        · simp
    | cons y t2 =>
      rw [intercalate_cons_nl]
      have hfx := hfree x (List.mem_cons_self x _)
      rw [splitlines_ne_nil_eq _ (by simp), normalizeCRLF_append_nl x _ hfx,
        splitlinesAux_line x [] _ hfx]
      by_cases hr : (normalizeCRLF (List.intercalate ['\n'] (y :: t2))).isEmpty = true
      · rw [if_pos hr]
        have hrnil : List.intercalate ['\n'] (y :: t2) = [] := by
          by_contra hne2
          exact absurd (List.isEmpty_iff.mp hr) (normalizeCRLF_ne_nil _ hne2)
        have hyt := intercalate_eq_nil_nl (y :: t2) (by simp) hrnil
        rw [List.cons_eq_cons] at hyt
        obtain ⟨rfl, rfl⟩ := hyt
        constructor
        · exact ⟨[([] : List Char)], by simp⟩
        · simp
      · rw [if_neg hr]
        have hrne : List.intercalate ['\n'] (y :: t2) ≠ [] := by
          intro hh
          rw [hh] at hr
          exact hr rfl
        obtain ⟨hpre, hlen⟩ := ih (by simp) (fun l hl => hfree l (List.mem_cons_of_mem x hl))
        rw [splitlines_ne_nil_eq _ hrne] at hpre hlen
        constructor
        · obtain ⟨u, hu⟩ := hpre
          refine ⟨u, ?_⟩
          simp only [List.reverse_nil, List.nil_append, List.cons_append, hu]
        · simp only [List.length_cons] at hlen ⊢
          omega

/-- Windows surviving the whitespace filter keep the `lineLoop` guarantees:
ordered in-range bounds and text equal to the newline-join of the slice. -/
theorem chunk_file_content_sound (content : List Char) (lpc ov : Nat) (hlpc : 1 ≤ lpc) :
    ∀ w ∈ chunk_file_content content lpc ov,
      w.2.1 ≤ w.2.2 ∧ w.2.2 < (splitlines content).length ∧
      w.1 = List.intercalate ['\n']
        (((splitlines content).drop w.2.1).take (w.2.2 + 1 - w.2.1)) := by
  intro w hw
  simp only [chunk_file_content] at hw
  split at hw
  · simp at hw
  · rw [List.mem_filter] at hw
    obtain ⟨h1, h2, h3, h4⟩ := lineLoop_sound (splitlines content) lpc ov hlpc 0 w hw.1
    exact ⟨h2, h3, h4⟩

/-- C3 counterexample: on the one-character text `"a"` the estimation
counter yields `0`, not the spec's `ceil(1 * 0.25) = 1`; the code computes
the floor, which under-estimates the spec's ceiling formula. -/
theorem C3_counterexample :
    count_tokens [('a' : Char)] ≠ spec_ceil_estimate (List.length [('a' : Char)]) ∧
    count_tokens [('a' : Char)] = 0 ∧ spec_ceil_estimate 1 = 1 := by
  decide

/-- C3 (amended): when the exact tokenizer is unavailable,
`count_tokens(text)` equals `floor(len(text) * 0.25) = len(text) // 4` for
every text and never raises; it never exceeds the spec's ceiling formula
`ceil(len(text) * 0.25)` — it under-estimates it, by at most one. -/
theorem C3_count_tokens_floor (text : List Char) :
    count_tokens text = text.length / 4 ∧
    count_tokens text ≤ spec_ceil_estimate text.length ∧
    spec_ceil_estimate text.length ≤ count_tokens text + 1 := by
  refine ⟨rfl, ?_, ?_⟩ <;>
    (unfold count_tokens spec_ceil_estimate; omega)

/-- C2: for every text and `max_tokens ≥ 1`, `truncate_chunk_to_token_limit`
terminates (it is a total function, including the 5% shrink loop) with a
result within the budget; whenever truncation occurred, the result is a
marker-free prefix of the input and the marker was omitted precisely
because the marker-appended text would exceed the budget. -/
theorem C2_truncate_contract (t : List Char) (m : Nat) (hm : 1 ≤ m) :
    count_tokens (truncate_chunk_to_token_limit t m) ≤ m ∧
    (truncate_chunk_to_token_limit t m ≠ t →
      truncate_chunk_to_token_limit t m <+: t ∧
      m < count_tokens (truncate_chunk_to_token_limit t m ++ TRUNCATION_MARKER)) := by
  refine ⟨truncate_le t m, ?_⟩
  intro hne
  by_cases h : count_tokens t ≤ m
  · exact absurd (by rw [truncate_chunk_to_token_limit, if_pos h]) hne
  · obtain ⟨hbe, hlen, heq⟩ := truncate_of_over t m h
    rw [heq]
    constructor
    · exact List.take_prefix _ _
    · rw [count_tokens_eq_div, List.length_append, List.length_take,
        TRUNCATION_MARKER_length]
      omega

/-- C2 witness at `text = "abcdefghijkl"`, `max_tokens = 1`. -/
theorem C2_truncate_contract_witness :
    1 ≤ 1 ∧
    (count_tokens (truncate_chunk_to_token_limit (("abcdefghijkl").toList) 1) ≤ 1 ∧
     (truncate_chunk_to_token_limit (("abcdefghijkl").toList) 1 ≠ ("abcdefghijkl").toList →
       truncate_chunk_to_token_limit (("abcdefghijkl").toList) 1 <+: ("abcdefghijkl").toList ∧
       1 < count_tokens (truncate_chunk_to_token_limit (("abcdefghijkl").toList) 1 ++
         TRUNCATION_MARKER))) :=
  ⟨le_refl 1, C2_truncate_contract (("abcdefghijkl").toList) 1 (le_refl 1)⟩

/-- C10: `truncate_chunk_to_token_limit` is the identity on already
compliant input, and is therefore idempotent on every input. -/
theorem C10_truncate_idempotent (t : List Char) (m : Nat) :
    (count_tokens t ≤ m → truncate_chunk_to_token_limit t m = t) ∧
    truncate_chunk_to_token_limit (truncate_chunk_to_token_limit t m) m =
      truncate_chunk_to_token_limit t m := by
  have hid : ∀ s : List Char, count_tokens s ≤ m →
      truncate_chunk_to_token_limit s m = s := by
    intro s hs
    rw [truncate_chunk_to_token_limit, if_pos hs]
  exact ⟨hid t, hid _ (truncate_le t m)⟩

/-- C10 witness at `text = "abcdefgh"` (2 estimated tokens), bound 5. -/
theorem C10_truncate_idempotent_witness :
    count_tokens (("abcdefgh").toList) ≤ 5 ∧
    truncate_chunk_to_token_limit (("abcdefgh").toList) 5 = ("abcdefgh").toList ∧
    truncate_chunk_to_token_limit (truncate_chunk_to_token_limit (("abcdefgh").toList) 5) 5 =
      truncate_chunk_to_token_limit (("abcdefgh").toList) 5 :=
  ⟨by decide, (C10_truncate_idempotent (("abcdefgh").toList) 5).1 (by decide),
   (C10_truncate_idempotent (("abcdefgh").toList) 5).2⟩

/-- C6: chunk ids `f"{path}:{revision}:{index}"` built by `index_file`
never collide across distinct revision strings of the same path, whatever
the two chunk indices are: the index part is colon-free, so the last `':'`
separates unambiguously. -/
theorem C6_revision_isolation (p r1 r2 : List Char) (i1 i2 : Nat) (hne : r1 ≠ r2) :
    chunk_id p r1 i1 ≠ chunk_id p r2 i2 := by
  intro heq
  unfold chunk_id at heq
  simp only [List.append_assoc, List.singleton_append, List.cons_append] at heq
  have heq2 := List.append_cancel_left heq
  rw [List.cons_eq_cons] at heq2
  have heq3 := heq2.2
  have hrev := congrArg List.reverse heq3
  simp only [List.reverse_append, List.reverse_cons, List.append_assoc,
    List.singleton_append, List.nil_append] at hrev
  obtain ⟨_, hx⟩ := sepSplit_inj (natDecimal i1).reverse r1.reverse
    (natDecimal i2).reverse r2.reverse
    (fun c hcm => natDecimal_ne_colon i1 c (List.mem_reverse.mp hcm))
    (fun c hcm => natDecimal_ne_colon i2 c (List.mem_reverse.mp hcm)) hrev
  exact hne (List.reverse_injective hx)

/-- C6 witness: same path, revisions `"a"` and `"b"`, indices 0 and 1. -/
theorem C6_revision_isolation_witness :
    ("a").toList ≠ ("b").toList ∧
    chunk_id (("p").toList) (("a").toList) 0 ≠ chunk_id (("p").toList) (("b").toList) 1 :=
  ⟨by decide, C6_revision_isolation (("p").toList) (("a").toList) (("b").toList) 0 1 (by decide)⟩

/-- C5 counterexample: in a two-file run whose first file hits the
embedding-function mismatch, `index_git_files` still processes the second
file — the per-file results are `[false, true]` and the count is 1, so the
run is not aborted at the mismatch. -/
theorem C5_counterexample :
    index_git_files_loop [(AcquireOutcome.efMismatch, true), (AcquireOutcome.ok, true)] =
      (1, [false, true]) := by
  decide

/-- C5 (amended): an embedding-configuration mismatch during collection
acquisition makes `index_file` fail for that file only — it logs a
descriptive error and returns `False` — and `index_git_files` still passes
every file of the run to `index_file` and counts the successes: the
failure is per-file, not fatal per-collection. -/
theorem C5_mismatch_per_file (files : List (AcquireOutcome × Bool)) :
    (∀ b : Bool, index_file_result AcquireOutcome.efMismatch b = false) ∧
    (index_git_files_loop files).2 = files.map (fun f => index_file_result f.1 f.2) ∧
    (index_git_files_loop files).1 =
      ((files.map fun f => index_file_result f.1 f.2).count true) := by
  have h := index_git_files_loop_general files 0 []
  unfold index_git_files_loop
  rw [h]
  exact ⟨fun b => rfl, by simp, by simp⟩

/-- C8: with `overlap ≥ lines_per_chunk ≥ 1` the advance is forced to 1,
the loop terminates (the function is total), and the chunking coincides
with the benign parameters `(lines_per_chunk, lines_per_chunk - 1)`, whose
advance is also 1. -/
theorem C8_degenerate_advance (content : List Char) (lpc ov : Nat)
    (h1 : lpc ≤ ov) (h2 : 1 ≤ lpc) :
    lineAdvance lpc ov = 1 ∧
    chunk_file_content content lpc ov = chunk_file_content content lpc (lpc - 1) := by
  have ha : lineAdvance lpc ov = 1 := by
    unfold lineAdvance
    dsimp only
    rw [if_pos (by omega)]
  have hb : lineAdvance lpc (lpc - 1) = 1 := by
    unfold lineAdvance
    dsimp only
    rw [if_neg (by omega)]
    omega
  refine ⟨ha, ?_⟩
  simp only [chunk_file_content]
  rw [lineLoop_congr (splitlines content) lpc ov (lpc - 1) h2 (by rw [ha, hb]) 0]

/-- C8 witness: `lines_per_chunk = 5, overlap = 5` on a three-line file. -/
theorem C8_degenerate_advance_witness :
    lineAdvance 5 5 = 1 ∧
    chunk_file_content (("a\nb\nc").toList) 5 5 =
      chunk_file_content (("a\nb\nc").toList) 5 4 :=
  C8_degenerate_advance (("a\nb\nc").toList) 5 5 (by decide) (by decide)

/-- C7: on any 100-line file all of whose produced windows contain
non-whitespace text, the line chunker with `lines_per_chunk = 40` and
`overlap = 5` yields exactly the windows `[0,39], [35,74], [70,99]`
(0-based, inclusive), in that order. -/
theorem C7_line_coverage (content : List Char)
    (hlen : (splitlines content).length = 100)
    (hw : ∀ w ∈ lineLoop (splitlines content) 40 5 0,
      w.1.any (fun ch => !pyIsSpace ch) = true) :
    (chunk_file_content content 40 5).map (fun w => (w.2.1, w.2.2)) =
      [(0, 39), (35, 74), (70, 99)] := by
  simp only [chunk_file_content]
  rw [if_neg (by rw [List.isEmpty_iff]; intro hh; rw [hh] at hlen; simp at hlen)]
  rw [List.filter_eq_self.mpr hw]
  have hadv : lineAdvance 40 5 = 35 := by decide
  rw [lineLoop_cons (splitlines content) 40 5 0 (by omega) (by omega) (by omega), hadv]
  rw [lineLoop_cons (splitlines content) 40 5 35 (by omega) (by omega) (by omega), hadv]
  rw [lineLoop_last (splitlines content) 40 5 70 (by omega) (by omega)]
  simp [hlen]

/-- The 100-line all-`x` file used as the C7 witness input. -/
def witnessContent100 : List Char :=
  List.intercalate ['\n'] (List.replicate 100 ['x'])

/-- C7 witness: the 100-line all-`x` file. -/
theorem C7_line_coverage_witness :
    (splitlines witnessContent100).length = 100 ∧
    (chunk_file_content witnessContent100 40 5).map (fun w => (w.2.1, w.2.2)) =
      [(0, 39), (35, 74), (70, 99)] := by
  have h1 : (splitlines witnessContent100).length = 100 := by decide
  have hsplit : splitlines witnessContent100 = List.replicate 100 ['x'] := by decide
  have hw : ∀ w ∈ lineLoop (splitlines witnessContent100) 40 5 0,
      w.1.any (fun ch => !pyIsSpace ch) = true := by
    intro w hwmem
    obtain ⟨hs0, hse, helt, htext⟩ :=
      lineLoop_sound (splitlines witnessContent100) 40 5 (by omega) 0 w hwmem
    rw [hsplit] at helt htext
    rw [List.drop_replicate, List.take_replicate] at htext
    rw [List.length_replicate] at helt
    rw [List.any_eq_true]
    refine ⟨'x', ?_, by decide⟩
    rw [htext]
    refine mem_intercalate_of_mem _ ['x'] ?_ 'x' (List.mem_singleton_self 'x')
    exact List.mem_replicate.mpr ⟨by omega, rfl⟩
  exact ⟨h1, C7_line_coverage witnessContent100 h1 hw⟩

/-- C4 counterexample: the `.py` file `"x = 1\ndef f():\n    pass"` has
exactly ONE detected boundary (line 1), yet the Semantic Chunker returns
two chunks and `chunk_file_content_semantic` keeps them instead of falling
back, so its output differs from calling the Line Chunker directly. -/
theorem C4_counterexample :
    detectBoundaries (splitlines (("x = 1\ndef f():\n    pass").toList)) (".py") = [1] ∧
    (_chunk_code_semantic (splitlines (("x = 1\ndef f():\n    pass").toList)) (".py")).length
      = 2 ∧
    chunk_file_content_semantic (("x = 1\ndef f():\n    pass").toList) (".py") 40 5 ≠
      chunk_file_content (("x = 1\ndef f():\n    pass").toList) 40 5 := by
  refine ⟨by decide, by decide, ?_⟩
  have hsem : chunk_file_content_semantic (("x = 1\ndef f():\n    pass").toList) (".py") 40 5 =
      _chunk_code_semantic (splitlines (("x = 1\ndef f():\n    pass").toList)) (".py") := by
    rw [chunk_file_content_semantic, if_neg (by decide), if_pos (by decide),
      if_pos ⟨by decide, by decide⟩]
  have hline : chunk_file_content (("x = 1\ndef f():\n    pass").toList) 40 5 =
      [((("x = 1\ndef f():\n    pass").toList), 0, 2)] := by
    simp only [chunk_file_content]
    rw [if_neg (by decide)]
    rw [lineLoop_last (splitlines (("x = 1\ndef f():\n    pass").toList)) 40 5 0
      (by decide) (by decide)]
    decide
  rw [hsem, hline]
  decide

/-- C4 (amended): when NO structural boundary line is detected, the
Semantic Chunker yields no result and the caller falls back to the Line
Chunker, producing output identical to calling the Line Chunker directly
with the same parameters; a single boundary detected on a positive line,
however, yields two semantic chunks which are preferred to the fallback. -/
theorem C4_semantic_fallback (content : List Char) (suffix : String) (lpc ov : Nat)
    (hdet : detectBoundaries (splitlines content) suffix = []) :
    _chunk_code_semantic (splitlines content) suffix = [] ∧
    chunk_file_content_semantic content suffix lpc ov =
      chunk_file_content content lpc ov := by
  have hsem : _chunk_code_semantic (splitlines content) suffix = [] := by
    rw [_chunk_code_semantic, if_pos hdet]
  refine ⟨hsem, ?_⟩
  rw [chunk_file_content_semantic]
  by_cases he : (splitlines content).isEmpty = true
  · rw [if_pos he]
    simp [chunk_file_content, he]
  · rw [if_neg he]
    by_cases hs : suffix ∈ SEMANTIC_SUFFIXES
    · rw [if_pos hs, if_neg (by rw [hsem]; simp)]
    · rw [if_neg hs]

/-- C4 witness: `"a\nb"` as a `.py` file detects no boundary. -/
theorem C4_semantic_fallback_witness :
    detectBoundaries (splitlines (("a\nb").toList)) (".py") = [] ∧
    (_chunk_code_semantic (splitlines (("a\nb").toList)) (".py") = [] ∧
     chunk_file_content_semantic (("a\nb").toList) (".py") 40 5 =
       chunk_file_content (("a\nb").toList) 40 5) :=
  ⟨by decide, C4_semantic_fallback (("a\nb").toList) (".py") 40 5 (by decide)⟩

/-- C9: every chunk emitted by the re-split stage of `_chunk_code_semantic`
(semantic candidates longer than 100 lines are re-chunked with the
100-line/5-overlap Line Chunker and shifted by the candidate's start line)
lies within its candidate's original line range, and its text equals the
newline-join of the file lines at those absolute coordinates. -/
theorem C9_resplit_absolute (lines : List (List Char))
    (hfree : ∀ l ∈ lines, ∀ c ∈ l, isLineBreak c = false)
    (cands : List (List Char × Nat × Nat))
    (hc : ∀ c ∈ cands, c.2.1 ≤ c.2.2 ∧ c.2.2 < lines.length ∧
      c.1 = sliceJoin lines c.2.1 c.2.2) :
    ∀ d ∈ resplitLarge cands, ∃ c ∈ cands,
      c.2.1 ≤ d.2.1 ∧ d.2.1 ≤ d.2.2 ∧ d.2.2 ≤ c.2.2 ∧
      d.1 = sliceJoin lines d.2.1 d.2.2 := by
  intro d hd
  unfold resplitLarge at hd
  rw [List.mem_flatMap] at hd
  obtain ⟨c, hcmem, hd2⟩ := hd
  obtain ⟨ctext, cs, ce⟩ := c
  obtain ⟨hse, helt, htext⟩ := hc (ctext, cs, ce) hcmem
  dsimp only at hse helt htext hd2
  by_cases hbig : MAX_LINES_PER_SEMANTIC_CHUNK < (splitlines ctext).length
  · rw [if_pos hbig] at hd2
    rw [List.mem_map] at hd2
    obtain ⟨s, hsmem, hsd⟩ := hd2
    obtain ⟨stext, sa, sb⟩ := s
    obtain ⟨hab, hblt, hstext⟩ :=
      chunk_file_content_sound ctext MAX_LINES_PER_SEMANTIC_CHUNK 5
        (by unfold MAX_LINES_PER_SEMANTIC_CHUNK; omega) (stext, sa, sb) hsmem
    dsimp only at hab hblt hstext hsd
    subst hsd
    have hslice_len : ((lines.drop cs).take (ce + 1 - cs)).length = ce + 1 - cs := by
      rw [List.length_take, List.length_drop]
      omega
    have hslice_ne : (lines.drop cs).take (ce + 1 - cs) ≠ [] := by
      intro hh
      rw [hh] at hslice_len
      simp at hslice_len
      omega
    have hslice_free : ∀ l ∈ (lines.drop cs).take (ce + 1 - cs),
        ∀ ch ∈ l, isLineBreak ch = false :=
      fun l hl => hfree l (List.mem_of_mem_drop (List.mem_of_mem_take hl))
    have hsplit_eq : splitlines ctext =
        splitlines (List.intercalate ['\n'] ((lines.drop cs).take (ce + 1 - cs))) := by
      rw [htext]
      rfl
    obtain ⟨hpre, _⟩ :=
      splitlines_intercalate_prefix ((lines.drop cs).take (ce + 1 - cs)) hslice_ne hslice_free
    rw [← hsplit_eq] at hpre
    have hlenle : (splitlines ctext).length ≤ ce + 1 - cs := by
      have := hpre.length_le
      omega
    have hS_take : splitlines ctext =
        ((lines.drop cs).take (ce + 1 - cs)).take (splitlines ctext).length :=
      List.prefix_iff_eq_take.mp hpre
    refine ⟨(ctext, cs, ce), hcmem, by dsimp only; omega, by dsimp only; omega,
      by dsimp only; omega, ?_⟩
    dsimp only
    unfold sliceJoin
    have hidx : cs + sb + 1 - (cs + sa) = sb + 1 - sa := by omega
    rw [hidx, hstext]
    have hstep1 : ((splitlines ctext).drop sa).take (sb + 1 - sa) =
        ((((lines.drop cs).take (ce + 1 - cs)).drop sa).take (sb + 1 - sa)) := by
      conv_lhs => rw [hS_take]
      rw [List.drop_take, List.take_take, min_eq_left (by omega)]
    rw [hstep1, List.drop_take, List.drop_drop, List.take_take,
      min_eq_left (by omega)]
  · rw [if_neg hbig] at hd2
    rw [List.mem_singleton] at hd2
    subst hd2
    exact ⟨(ctext, cs, ce), hcmem, le_refl _, hse, le_refl _, htext⟩

/-- The 150-line all-`x` file used as the C9 witness input. -/
def witnessLines150 : List (List Char) := List.replicate 150 ['x']

/-- C9 witness: one 150-line candidate covering the whole file. -/
theorem C9_resplit_absolute_witness :
    (∀ l ∈ witnessLines150, ∀ c ∈ l, isLineBreak c = false) ∧
    (∀ c ∈ [(sliceJoin witnessLines150 0 149, 0, 149)],
      c.2.1 ≤ c.2.2 ∧ c.2.2 < witnessLines150.length ∧
      c.1 = sliceJoin witnessLines150 c.2.1 c.2.2) ∧
    (∀ d ∈ resplitLarge [(sliceJoin witnessLines150 0 149, 0, 149)],
      ∃ c ∈ [(sliceJoin witnessLines150 0 149, 0, 149)],
        c.2.1 ≤ d.2.1 ∧ d.2.1 ≤ d.2.2 ∧ d.2.2 ≤ c.2.2 ∧
        d.1 = sliceJoin witnessLines150 d.2.1 d.2.2) := by
  have hfree : ∀ l ∈ witnessLines150, ∀ c ∈ l, isLineBreak c = false := by
    intro l hl c hcl
    rw [witnessLines150] at hl
    have hlx := List.eq_of_mem_replicate hl
    subst hlx
    rw [List.mem_singleton] at hcl
    subst hcl
    decide
  have hc : ∀ c ∈ [(sliceJoin witnessLines150 0 149, 0, 149)],
      c.2.1 ≤ c.2.2 ∧ c.2.2 < witnessLines150.length ∧
      c.1 = sliceJoin witnessLines150 c.2.1 c.2.2 := by
    intro c hcm
    rw [List.mem_singleton] at hcm
    subst hcm
    refine ⟨by dsimp only; omega, ?_, rfl⟩
    dsimp only
    rw [witnessLines150, List.length_replicate]
    omega
  exact ⟨hfree, hc, C9_resplit_absolute witnessLines150 hfree _ hc⟩

/-- C1 counterexample: a single chunk of 8000 estimated tokens (below the
8192 provider maximum but above the 7692 batch budget) is assembled into a
batch whose token sum exceeds `max_tokens_per_batch`. -/
theorem C1_counterexample :
    Submission.batch [8000] ∈ assembleBatches [8000] ∧
    max_tokens_per_batch < List.sum [8000] := by
  have he : assembleBatches [8000] = [Submission.batch [8000]] := by
    simp [assembleBatches, batchOuter, batchInner, batch_size,
      max_tokens_per_batch, OPENAI_MAX_TOKENS]
  rw [he]
  exact ⟨List.mem_singleton_self _, by decide⟩

/-- C1 (amended): every assembled batch holds at most `batch_size = 5`
chunks, every chunk in a batch is within `OPENAI_MAX_TOKENS = 8192`, and
the batch's token sum respects `max_tokens_per_batch = 7692` whenever the
batch holds at least two chunks; chunks are accumulated while
`batch_tokens + chunk_tokens ≤ max_tokens_per_batch` or the batch is still
empty, so a chunk whose own count lies in `(7692, 8192]` forms a singleton
batch whose sum exceeds the budget. -/
theorem C1_batch_limits (ts : List Nat) (b : List Nat)
    (hb : Submission.batch b ∈ assembleBatches ts) :
    b.length ≤ batch_size ∧ (2 ≤ b.length → b.sum ≤ max_tokens_per_batch) ∧
    ∀ t ∈ b, t ≤ OPENAI_MAX_TOKENS :=
  batchOuter_invariant ts ts.length 0 (by omega) b hb

/-- C1 witness: the two-chunk list `[100, 200]` forms one compliant batch. -/
theorem C1_batch_limits_witness :
    Submission.batch [100, 200] ∈ assembleBatches [100, 200] ∧
    ([100, 200] : List Nat).length ≤ batch_size ∧
    (2 ≤ ([100, 200] : List Nat).length →
      ([100, 200] : List Nat).sum ≤ max_tokens_per_batch) ∧
    ∀ t ∈ ([100, 200] : List Nat), t ≤ OPENAI_MAX_TOKENS := by
  have he : assembleBatches [100, 200] = [Submission.batch [100, 200]] := by
    simp [assembleBatches, batchOuter, batchInner, batch_size,
      max_tokens_per_batch, OPENAI_MAX_TOKENS]
  have hmem : Submission.batch [100, 200] ∈ assembleBatches [100, 200] := by
    rw [he]
    exact List.mem_singleton_self _
  exact ⟨hmem, C1_batch_limits [100, 200] [100, 200] hmem⟩
